import Mathlib

/-!
# Verification of the RepoTree tree-builder/renderer module

Shallow embedding of the tree-construction, rendering and filtering code of
the RepoTree repository:

* `generateStructure` and its map-construction phase (`build`, `insertItem`,
  `insertParts`) — from `src/app/repo-structure.tsx`, lines 94–110;
* `buildStructureString` — from `src/app/repo-structure.tsx`, lines 113–123;
* `filterStructure` — from `src/app/generator/repo-tree-generator.tsx`,
  lines 153–170.

A JavaScript `Map` is modelled as an insertion-ordered association list
(`Children` below): `Map.prototype.set` on an existing key updates the
value in place (keeping the key's position) and appends the pair otherwise;
iteration follows insertion order.  `{ type: 'file' }` marker objects are
the `Node.file` constructor, nested `Map`s are `Node.dir`.  `Children` is a
bespoke list type (mutually inductive with `Node`) rather than
`List (String × Node)` so that all operations are plain structural
recursions.  JavaScript's `String.prototype.split('/')`,
`String.prototype.includes` and `String.prototype.toLowerCase` are modelled
by executable character-list functions (`splitSlash`, `isInfixChars`,
`Char.toLower`).
-/

namespace RepoTree

mutual

/-- A node of the directory structure: either a nested `Map` (a directory,
holding an insertion-ordered association list of children) or the
`{ type: 'file' }` marker object. -/
inductive Node where
  | dir (children : Children)
  | file

/-- The entries of a directory `Map`, in insertion order. -/
inductive Children where
  | nil
  | cons (key : String) (value : Node) (rest : Children)

end

/-- One item of the flat tree listing returned by the hosting API
(`TreeItem` in the source): a `/`-delimited path and a type string
(`"blob"` for files, `"tree"` for directories). -/
structure TreeItem where
  path : String
  type : String
deriving DecidableEq

/-- Build a `Children` map from a list of key/node pairs (used to write
down concrete structures). -/
def toChildren : List (String × Node) → Children
  | [] => Children.nil
  | (k, v) :: rest => Children.cons k v (toChildren rest)

/-- `Map.prototype.get` / key lookup: the value of the first (and, in maps
built by this module, only) binding of `k`. -/
def mapGet (k : String) : Children → Option Node
  | Children.nil => none
  | Children.cons k' v rest => if k' = k then some v else mapGet k rest

/-- `Map.prototype.set`: update the first binding of `k` in place (keeping
its position), or append the binding if `k` is absent. -/
def mapSet (k : String) (v : Node) : Children → Children
  | Children.nil => Children.cons k v Children.nil
  | Children.cons k' v' rest =>
    if k' = k then Children.cons k v rest else Children.cons k' v' (mapSet k v rest)

/-- `Map.prototype.size`: the number of entries of a map. -/
def mapSize : Children → Nat
  | Children.nil => 0
  | Children.cons _ _ rest => 1 + mapSize rest

/-- The keys of a map, in insertion order. -/
def keysOf : Children → List String
  | Children.nil => []
  | Children.cons k _ rest => k :: keysOf rest

/-- JavaScript `path.split('/')` on the character list of the path: splits
at every `'/'`, keeping empty segments (so `""` yields `[[]]`). -/
def splitSlash : List Char → List (List Char)
  | [] => [[]]
  | c :: rest =>
    match splitSlash rest with
    | [] => [[]]
    | seg :: segs => if c = '/' then [] :: seg :: segs else (c :: seg) :: segs

/-- The `/`-segment list of a path string (`item.path.split('/')`). -/
def segsOfPath (path : String) : List String :=
  (splitSlash path.toList).map (fun cs => String.mk cs)

/-- The `/`-segment list of an item's path. -/
def segsOf (item : TreeItem) : List String :=
  segsOfPath item.path

/-- The inner `parts.forEach` loop of `generateStructure`, processing the
remaining path segments of one entry against the current level map.
For each segment: if the current level is not a `Map` the iteration
returns (and, since the level never changes afterwards, all remaining
iterations return too — modelled by stopping); a missing key is first
bound to a fresh empty `Map`; on the final segment of a `"blob"` entry the
key is then overwritten with `{ type: 'file' }`. -/
def insertParts (isBlob : Bool) : List String → Children → Children
  | [], m => m
  | [part], m =>
    let m1 := if (mapGet part m).isSome then m else mapSet part (Node.dir Children.nil) m
    if isBlob then mapSet part Node.file m1 else m1
  | part :: seg :: rest, m =>
    let m1 := if (mapGet part m).isSome then m else mapSet part (Node.dir Children.nil) m
    match mapGet part m1 with
    | some (Node.dir sub) => mapSet part (Node.dir (insertParts isBlob (seg :: rest) sub)) m1
    | _ => m1

/-- Processing of one `TreeItem` by `generateStructure`: split the path on
`'/'` and run the segment loop from the current root map. -/
def insertItem (item : TreeItem) (m : Children) : Children :=
  insertParts (item.type == "blob") (segsOf item) m

/-- The map-construction phase of `generateStructure`
(`src/app/repo-structure.tsx`, lines 95–108): fold every listing item into
an initially empty root map. -/
def build (tree : List TreeItem) : Children :=
  tree.foldl (fun m item => insertItem item m) Children.nil

/-- `buildStructureString` (`src/app/repo-structure.tsx`, lines 113–123):
render a map as ASCII lines `<prefix>├── <key>\n`, recursing into `Map`
values with the prefix extended by `"│   "`; a key equal to the literal
string `"type"` is skipped (`continue`) entirely. -/
def buildStructureString : Children → String → String
  | Children.nil, _ => ""
  | Children.cons key value rest, pre =>
    (if key = "type" then "" else
      pre ++ "├── " ++ key ++ "\n" ++
        (match value with
         | Node.dir sub => buildStructureString sub (pre ++ "│   ")
         | Node.file => ""))
      ++ buildStructureString rest pre

/-- `generateStructure` (`src/app/repo-structure.tsx`, lines 94–110): build
the map from the flat listing and render it with the empty initial
prefix. -/
def generateStructure (tree : List TreeItem) : String :=
  buildStructureString (build tree) ""

/-- Boolean prefix test on character lists. -/
def isPrefixChars : List Char → List Char → Bool
  | [], _ => true
  | _ :: _, [] => false
  | c :: cs, d :: ds => c = d && isPrefixChars cs ds

/-- Boolean contiguous-substring test on character lists
(JavaScript `String.prototype.includes`). -/
def isInfixChars (needle : List Char) : List Char → Bool
  | [] => isPrefixChars needle []
  | d :: ds => isPrefixChars needle (d :: ds) || isInfixChars needle ds

/-- The lower-cased character list of a string
(JavaScript `String.prototype.toLowerCase`). -/
def lowerChars (s : String) : List Char :=
  s.toList.map Char.toLower

/-- Case-insensitive substring test,
`key.toLowerCase().includes(term.toLowerCase())`. -/
def containsCI (key term : String) : Bool :=
  isInfixChars (lowerChars term) (lowerChars key)

/-- `filterStructure` (`src/app/generator/repo-tree-generator.tsx`,
lines 153–170): keep a file child iff its key contains the search term
case-insensitively; keep a directory child — with recursively filtered
children — iff the filtered children are non-empty or the key contains the
term. -/
def filterStructure : Children → String → Children
  | Children.nil, _ => Children.nil
  | Children.cons key Node.file rest, term =>
    if containsCI key term
      then Children.cons key Node.file (filterStructure rest term)
      else filterStructure rest term
  | Children.cons key (Node.dir sub) rest, term =>
    let filteredSubMap := filterStructure sub term
    if mapSize filteredSubMap > 0 || containsCI key term
      then Children.cons key (Node.dir filteredSubMap) (filterStructure rest term)
      else filterStructure rest term

/-- Path lookup in the structure, descending through directory children;
used to state properties of `build`'s output. -/
def lookupPath (n : Node) : List String → Option Node
  | [] => some n
  | k :: ks =>
    match n with
    | Node.file => none
    | Node.dir m =>
      match mapGet k m with
      | some c => lookupPath c ks
      | none => none

/-- The paths (as segment lists) of all `file` leaves of a map, in
pre-order traversal order. -/
def leafPaths : Children → List (List String)
  | Children.nil => []
  | Children.cons k Node.file rest => [k] :: leafPaths rest
  | Children.cons k (Node.dir sub) rest =>
    (leafPaths sub).map (fun p => k :: p) ++ leafPaths rest

mutual

/-- Number of nodes of a structure node (itself included). -/
def nodeCount : Node → Nat
  | Node.file => 1
  | Node.dir l => 1 + childCount l

/-- Total node count of the entries of a map. -/
def childCount : Children → Nat
  | Children.nil => 0
  | Children.cons _ v rest => nodeCount v + childCount rest

end

/-- Some prefix of the path `p` is occupied by a `file` node in `m`, so
that a lookup of `p` cannot reach a directory. -/
def fileBlocked (m : Children) (p : List String) : Prop :=
  ∃ a, a <+: p ∧ lookupPath (Node.dir m) a = some Node.file

/-- Concatenation of entry lists (used to state properties about maps
containing a given entry, and about rendering order). -/
def appendC : Children → Children → Children
  | Children.nil, m => m
  | Children.cons k v rest, m => Children.cons k v (appendC rest m)

mutual

/-- Decidable equality of structure nodes. -/
def nodeDecEq : (a b : Node) → Decidable (a = b)
  | Node.file, Node.file => isTrue rfl
  | Node.file, Node.dir _ => isFalse (fun h => Node.noConfusion h)
  | Node.dir _, Node.file => isFalse (fun h => Node.noConfusion h)
  | Node.dir l1, Node.dir l2 =>
    match childrenDecEq l1 l2 with
    | isTrue h => isTrue (by rw [h])
    | isFalse h => isFalse (fun hh => h (by cases hh; rfl))

/-- Decidable equality of map entry lists. -/
def childrenDecEq : (a b : Children) → Decidable (a = b)
  | Children.nil, Children.nil => isTrue rfl
  | Children.nil, Children.cons _ _ _ => isFalse (fun h => Children.noConfusion h)
  | Children.cons _ _ _, Children.nil => isFalse (fun h => Children.noConfusion h)
  | Children.cons k1 v1 r1, Children.cons k2 v2 r2 =>
    match String.decEq k1 k2, nodeDecEq v1 v2, childrenDecEq r1 r2 with
    | isTrue h1, isTrue h2, isTrue h3 => isTrue (by rw [h1, h2, h3])
    | isFalse h1, _, _ => isFalse (fun hh => by cases hh; exact h1 rfl)
    | _, isFalse h2, _ => isFalse (fun hh => by cases hh; exact h2 rfl)
    | _, _, isFalse h3 => isFalse (fun hh => by cases hh; exact h3 rfl)

end

instance : DecidableEq Node := nodeDecEq

instance : DecidableEq Children := childrenDecEq

/-! ## Basic lemmas about the map operations -/

theorem mapGet_mapSet_self (k : String) (v : Node) :
    (m : Children) → mapGet k (mapSet k v m) = some v
  | Children.nil => by simp [mapSet, mapGet]
  | Children.cons k' v' rest => by
    by_cases h : k' = k
    · simp [mapSet, h, mapGet]
    · simp [mapSet, h, mapGet, mapGet_mapSet_self k v rest]

theorem mapGet_mapSet_ne (a k : String) (v : Node) (h : a ≠ k) :
    (m : Children) → mapGet a (mapSet k v m) = mapGet a m
  | Children.nil => by simp [mapSet, mapGet, Ne.symm h]
  | Children.cons k' v' rest => by
    by_cases hk : k' = k
    · subst hk
      simp [mapSet, mapGet, Ne.symm h]
    · simp [mapSet, hk, mapGet, mapGet_mapSet_ne a k v h rest]

theorem keysOf_mapSet_present (k : String) (v : Node) :
    (m : Children) → (mapGet k m).isSome → keysOf (mapSet k v m) = keysOf m
  | Children.nil, h => by simp [mapGet] at h
  | Children.cons k' v' rest, h => by
    by_cases hk : k' = k
    · simp [mapSet, hk, keysOf]
    · simp [mapGet, hk] at h
      simp [mapSet, hk, keysOf, keysOf_mapSet_present k v rest h]

theorem keysOf_mapSet_absent (k : String) (v : Node) :
    (m : Children) → mapGet k m = none → keysOf (mapSet k v m) = keysOf m ++ [k]
  | Children.nil, _ => by simp [mapSet, keysOf]
  | Children.cons k' v' rest, h => by
    by_cases hk : k' = k
    · simp [mapGet, hk] at h
    · simp [mapGet, hk] at h
      simp [mapSet, hk, keysOf, keysOf_mapSet_absent k v rest h]

theorem mapSize_eq_zero (m : Children) (h : mapSize m = 0) : m = Children.nil := by
  cases m with
  | nil => rfl
  | cons k v rest => simp [mapSize] at h

theorem isInfixChars_nil_left (l : List Char) : isInfixChars [] l = true := by
  cases l <;> rfl

theorem containsCI_empty_term (key : String) : containsCI key "" = true := by
  have h : lowerChars "" = [] := rfl
  unfold containsCI
  rw [h]
  exact isInfixChars_nil_left _

/-! ## Lemmas about filtering -/

theorem filterStructure_empty_term : (m : Children) → filterStructure m "" = m
  | Children.nil => rfl
  | Children.cons k Node.file rest => by
    simp [filterStructure, containsCI_empty_term, filterStructure_empty_term rest]
  | Children.cons k (Node.dir sub) rest => by
    simp [filterStructure, containsCI_empty_term, filterStructure_empty_term rest,
      filterStructure_empty_term sub]

theorem leafPaths_mem_ne_nil : (m : Children) → ∀ p ∈ leafPaths m, p ≠ []
  | Children.nil => by simp [leafPaths]
  | Children.cons k Node.file rest => by
    simp only [leafPaths, List.mem_cons]
    rintro p (rfl | hp)
    · simp
    · exact leafPaths_mem_ne_nil rest p hp
  | Children.cons k (Node.dir sub) rest => by
    simp only [leafPaths, List.mem_append, List.mem_map]
    rintro p (⟨q, _, rfl⟩ | hp)
    · simp
    · exact leafPaths_mem_ne_nil rest p hp

theorem getLastD_cons_of_ne_nil (k d : String) (p : List String) (h : p ≠ []) :
    (k :: p).getLastD d = p.getLastD d := by
  cases p with
  | nil => exact absurd rfl h
  | cons a l => simp [List.getLastD_cons]

theorem buildStructureString_cons_file (k : String) (rest : Children) (pre : String) :
    buildStructureString (Children.cons k Node.file rest) pre
      = (if k = "type" then "" else pre ++ "├── " ++ k ++ "\n" ++ "")
        ++ buildStructureString rest pre := by
  rw [buildStructureString.eq_def]

theorem buildStructureString_cons_dir (k : String) (sub rest : Children) (pre : String) :
    buildStructureString (Children.cons k (Node.dir sub) rest) pre
      = (if k = "type" then ""
          else pre ++ "├── " ++ k ++ "\n" ++ buildStructureString sub (pre ++ "│   "))
        ++ buildStructureString rest pre := by
  rw [buildStructureString.eq_def]

theorem leafPaths_filterStructure (term : String) : (m : Children) →
    leafPaths (filterStructure m term)
      = (leafPaths m).filter (fun p => containsCI (p.getLastD "") term)
  | Children.nil => rfl
  | Children.cons k Node.file rest => by
    have hrest := leafPaths_filterStructure term rest
    cases h : containsCI k term with
    | true => simp [filterStructure, h, leafPaths, hrest, List.filter_cons]
    | false => simp [filterStructure, h, leafPaths, hrest, List.filter_cons]
  | Children.cons k (Node.dir sub) rest => by
    have hsub := leafPaths_filterStructure term sub
    have hrest := leafPaths_filterStructure term rest
    have hmap : ((leafPaths sub).map (fun p => k :: p)).filter
          (fun p => containsCI (p.getLastD "") term)
        = ((leafPaths sub).filter (fun p => containsCI (p.getLastD "") term)).map
          (fun p => k :: p) := by
      rw [List.filter_map]
      congr 1
      apply List.filter_congr
      intro p hp
      have hne := leafPaths_mem_ne_nil sub p hp
      cases p with
      | nil => exact absurd rfl hne
      | cons a l => simp [Function.comp, List.getLastD_cons]
    simp only [leafPaths, List.filter_append, hmap, ← hsub, ← hrest]
    by_cases h0 : mapSize (filterStructure sub term) = 0
    · have hnil := mapSize_eq_zero _ h0
      cases hc : containsCI k term with
      | true => simp [filterStructure, hnil, hc, leafPaths, mapSize]
      | false => simp [filterStructure, hnil, hc, leafPaths, mapSize]
    · simp [filterStructure, leafPaths, Nat.pos_of_ne_zero h0]

/-! ## Lemmas about `insertParts` and `lookupPath` -/

theorem insertParts_nil (b : Bool) (m : Children) : insertParts b [] m = m := rfl

theorem insertParts_single_present (b : Bool) (part : String) (m : Children) (v : Node)
    (h : mapGet part m = some v) :
    insertParts b [part] m = if b then mapSet part Node.file m else m := by
  simp [insertParts, h]

theorem insertParts_single_absent (b : Bool) (part : String) (m : Children)
    (h : mapGet part m = none) :
    insertParts b [part] m
      = if b then mapSet part Node.file (mapSet part (Node.dir Children.nil) m)
        else mapSet part (Node.dir Children.nil) m := by
  simp [insertParts, h]

theorem insertParts_cons2_dir (b : Bool) (part seg : String) (rest : List String)
    (m sub : Children) (h : mapGet part m = some (Node.dir sub)) :
    insertParts b (part :: seg :: rest) m
      = mapSet part (Node.dir (insertParts b (seg :: rest) sub)) m := by
  simp [insertParts, h]

theorem insertParts_cons2_file (b : Bool) (part seg : String) (rest : List String)
    (m : Children) (h : mapGet part m = some Node.file) :
    insertParts b (part :: seg :: rest) m = m := by
  simp [insertParts, h]

theorem insertParts_cons2_absent (b : Bool) (part seg : String) (rest : List String)
    (m : Children) (h : mapGet part m = none) :
    insertParts b (part :: seg :: rest) m
      = mapSet part (Node.dir (insertParts b (seg :: rest) Children.nil))
          (mapSet part (Node.dir Children.nil) m) := by
  simp [insertParts, h, mapGet_mapSet_self]

theorem lookupPath_nil (n : Node) : lookupPath n [] = some n := rfl

theorem lookupPath_file_cons (k : String) (ks : List String) :
    lookupPath Node.file (k :: ks) = none := rfl

theorem lookupPath_dir_cons (m : Children) (k : String) (ks : List String) :
    lookupPath (Node.dir m) (k :: ks)
      = match mapGet k m with
        | some c => lookupPath c ks
        | none => none := rfl

theorem lookupPath_append (a : List String) :
    ∀ (q : List String) (n : Node),
    lookupPath n (a ++ q) = (lookupPath n a).bind (fun c => lookupPath c q) := by
  induction a with
  | nil => intro q n; simp [lookupPath]
  | cons k a' ih =>
    intro q n
    cases n with
    | file => simp [lookupPath]
    | dir m =>
      rw [List.cons_append, lookupPath_dir_cons, lookupPath_dir_cons]
      cases h : mapGet k m with
      | some c => simp [ih q c]
      | none => simp

theorem mapGet_insertParts_ne (b : Bool) (part : String) (stail : List String)
    (m : Children) (k : String) (hk : k ≠ part) :
    mapGet k (insertParts b (part :: stail) m) = mapGet k m := by
  cases stail with
  | nil =>
    cases h : mapGet part m with
    | some v =>
      rw [insertParts_single_present b part m v h]
      cases b <;> simp [mapGet_mapSet_ne k part Node.file hk]
    | none =>
      rw [insertParts_single_absent b part m h]
      cases b <;>
        simp [mapGet_mapSet_ne k part Node.file hk,
          mapGet_mapSet_ne k part (Node.dir Children.nil) hk]
  | cons seg rest =>
    cases h : mapGet part m with
    | some v =>
      cases v with
      | dir sub =>
        rw [insertParts_cons2_dir b part seg rest m sub h]
        exact mapGet_mapSet_ne k part _ hk m
      | file => rw [insertParts_cons2_file b part seg rest m h]
    | none =>
      rw [insertParts_cons2_absent b part seg rest m h,
        mapGet_mapSet_ne k part _ hk _, mapGet_mapSet_ne k part _ hk m]

theorem keysOf_insertParts_prefix (b : Bool) (segs : List String) (m : Children) :
    keysOf m <+: keysOf (insertParts b segs m) := by
  cases segs with
  | nil => exact List.prefix_refl _
  | cons part stail =>
    cases stail with
    | nil =>
      cases h : mapGet part m with
      | some v =>
        rw [insertParts_single_present b part m v h]
        cases b with
        | false => exact List.prefix_refl _
        | true =>
          rw [if_pos rfl, keysOf_mapSet_present part Node.file m (by simp [h])]
      | none =>
        rw [insertParts_single_absent b part m h]
        cases b with
        | false =>
          rw [if_neg (by simp), keysOf_mapSet_absent part _ m h]
          exact List.prefix_append _ _
        | true =>
          rw [if_pos rfl,
            keysOf_mapSet_present part Node.file _ (by simp [mapGet_mapSet_self]),
            keysOf_mapSet_absent part _ m h]
          exact List.prefix_append _ _
    | cons seg rest =>
      cases h : mapGet part m with
      | some v =>
        cases v with
        | dir sub =>
          rw [insertParts_cons2_dir b part seg rest m sub h,
            keysOf_mapSet_present part _ m (by simp [h])]
        | file => rw [insertParts_cons2_file b part seg rest m h]
      | none =>
        rw [insertParts_cons2_absent b part seg rest m h,
          keysOf_mapSet_present part _ _ (by simp [mapGet_mapSet_self]),
          keysOf_mapSet_absent part _ m h]
        exact List.prefix_append _ _

theorem lookupPath_dir_cons_get (m : Children) (k : String) (ks : List String) (c : Node)
    (h : mapGet k m = some c) : lookupPath (Node.dir m) (k :: ks) = lookupPath c ks := by
  rw [lookupPath_dir_cons, h]

theorem lookupPath_dir_cons_none (m : Children) (k : String) (ks : List String)
    (h : mapGet k m = none) : lookupPath (Node.dir m) (k :: ks) = none := by
  rw [lookupPath_dir_cons, h]

theorem lookupPath_file_eq (p : List String) (v : Node)
    (h : lookupPath Node.file p = some v) : p = [] ∧ v = Node.file := by
  cases p with
  | nil =>
    rw [lookupPath_nil] at h
    injection h with h1
    exact ⟨rfl, h1.symm⟩
  | cons k ks =>
    rw [lookupPath_file_cons] at h
    exact Option.noConfusion h

theorem lookupPath_dir_nil_not_file (q : List String) :
    lookupPath (Node.dir Children.nil) q ≠ some Node.file := by
  cases q with
  | nil => simp [lookupPath]
  | cons x xs => simp [lookupPath, mapGet]

theorem singleton_prefix_cons (k : String) (p : List String) : [k] <+: k :: p :=
  ⟨p, rfl⟩

theorem cons_prefix_cons_of (k : String) (a p : List String) (h : a <+: p) :
    k :: a <+: k :: p := by
  obtain ⟨t, rfl⟩ := h
  exact ⟨t, rfl⟩

theorem dir_some_inj (m l : Children) (h : some (Node.dir m) = some (Node.dir l)) :
    m = l := by
  injection h with h1
  injection h1

/-- Inserting an entry either keeps a directory reachable at `p` a directory
(only ever appending to its key list), or leaves some prefix of `p` occupied
by a `file` node. -/
theorem insertParts_preserves_dir (b : Bool) :
    (segs : List String) → ∀ (m : Children) (p : List String) (l : Children),
    lookupPath (Node.dir m) p = some (Node.dir l) →
    (∃ l', lookupPath (Node.dir (insertParts b segs m)) p = some (Node.dir l')
        ∧ keysOf l <+: keysOf l')
    ∨ fileBlocked (insertParts b segs m) p
  | [], m, p, l, h => Or.inl ⟨l, by rw [insertParts_nil]; exact h, List.prefix_refl _⟩
  | [part], m, p, l, h => by
    cases p with
    | nil =>
      rw [lookupPath_nil] at h
      obtain rfl := dir_some_inj m l h
      exact Or.inl ⟨insertParts b [part] m, rfl, keysOf_insertParts_prefix b [part] m⟩
    | cons k p' =>
      by_cases hk : k = part
      · subst hk
        cases hc : mapGet k m with
        | none => rw [lookupPath_dir_cons_none m k p' hc] at h; exact Option.noConfusion h
        | some c =>
          rw [lookupPath_dir_cons_get m k p' c hc] at h
          rw [insertParts_single_present b k m c hc]
          cases b with
          | false => exact Or.inl ⟨l, by rw [if_neg (by simp), lookupPath_dir_cons_get m k p' c hc]; exact h, List.prefix_refl _⟩
          | true =>
            refine Or.inr ⟨[k], singleton_prefix_cons k p', ?_⟩
            rw [if_pos rfl, lookupPath_dir_cons_get _ k [] Node.file (mapGet_mapSet_self k Node.file m), lookupPath_nil]
      · refine Or.inl ⟨l, ?_, List.prefix_refl _⟩
        rw [lookupPath_dir_cons, mapGet_insertParts_ne b part [] m k hk, ← lookupPath_dir_cons]
        exact h
  | part :: seg :: rest, m, p, l, h => by
    cases p with
    | nil =>
      rw [lookupPath_nil] at h
      obtain rfl := dir_some_inj m l h
      exact Or.inl ⟨insertParts b (part :: seg :: rest) m, rfl,
        keysOf_insertParts_prefix b (part :: seg :: rest) m⟩
    | cons k p' =>
      by_cases hk : k = part
      · subst hk
        cases hc : mapGet k m with
        | none => rw [lookupPath_dir_cons_none m k p' hc] at h; exact Option.noConfusion h
        | some c =>
          rw [lookupPath_dir_cons_get m k p' c hc] at h
          cases c with
          | file =>
            obtain ⟨_, hvf⟩ := lookupPath_file_eq p' (Node.dir l) h
            exact Node.noConfusion hvf
          | dir sub =>
            rw [insertParts_cons2_dir b k seg rest m sub hc]
            rcases insertParts_preserves_dir b (seg :: rest) sub p' l h with ⟨l', hl', hpre⟩ | hfb
            · refine Or.inl ⟨l', ?_, hpre⟩
              rw [lookupPath_dir_cons_get _ k p' _ (mapGet_mapSet_self k _ m)]
              exact hl'
            · obtain ⟨a, hap, hf⟩ := hfb
              refine Or.inr ⟨k :: a, cons_prefix_cons_of k a p' hap, ?_⟩
              rw [lookupPath_dir_cons_get _ k a _ (mapGet_mapSet_self k _ m)]
              exact hf
      · refine Or.inl ⟨l, ?_, List.prefix_refl _⟩
        rw [lookupPath_dir_cons, mapGet_insertParts_ne b part (seg :: rest) m k hk,
          ← lookupPath_dir_cons]
        exact h

/-- A `file` node reachable in `m` stays reachable (possibly at a shorter
prefix, when a blob overwrite truncates the subtree) after any insertion. -/
theorem insertParts_file_persists (b : Bool) :
    (segs : List String) → ∀ (m : Children) (a : List String),
    lookupPath (Node.dir m) a = some Node.file →
    ∃ a', a' <+: a ∧ lookupPath (Node.dir (insertParts b segs m)) a' = some Node.file
  | [], m, a, h => ⟨a, List.prefix_refl _, by rw [insertParts_nil]; exact h⟩
  | [part], m, a, h => by
    cases a with
    | nil => rw [lookupPath_nil] at h; exact absurd h (by simp)
    | cons k a' =>
      by_cases hk : k = part
      · subst hk
        cases hc : mapGet k m with
        | none => rw [lookupPath_dir_cons_none m k a' hc] at h; exact Option.noConfusion h
        | some c =>
          rw [insertParts_single_present b k m c hc]
          cases b with
          | false =>
            refine ⟨k :: a', List.prefix_refl _, ?_⟩
            rw [if_neg (by simp)]
            exact h
          | true =>
            refine ⟨[k], singleton_prefix_cons k a', ?_⟩
            rw [if_pos rfl,
              lookupPath_dir_cons_get _ k [] Node.file (mapGet_mapSet_self k Node.file m),
              lookupPath_nil]
      · refine ⟨k :: a', List.prefix_refl _, ?_⟩
        rw [lookupPath_dir_cons, mapGet_insertParts_ne b part [] m k hk, ← lookupPath_dir_cons]
        exact h
  | part :: seg :: rest, m, a, h => by
    cases a with
    | nil => rw [lookupPath_nil] at h; exact absurd h (by simp)
    | cons k a' =>
      by_cases hk : k = part
      · subst hk
        cases hc : mapGet k m with
        | none => rw [lookupPath_dir_cons_none m k a' hc] at h; exact Option.noConfusion h
        | some c =>
          rw [lookupPath_dir_cons_get m k a' c hc] at h
          cases c with
          | file =>
            refine ⟨k :: a', List.prefix_refl _, ?_⟩
            rw [insertParts_cons2_file b k seg rest m hc, lookupPath_dir_cons_get m k a' _ hc]
            exact h
          | dir sub =>
            obtain ⟨a'', ha'', hf⟩ := insertParts_file_persists b (seg :: rest) sub a' h
            refine ⟨k :: a'', cons_prefix_cons_of k a'' a' ha'', ?_⟩
            rw [insertParts_cons2_dir b k seg rest m sub hc,
              lookupPath_dir_cons_get _ k a'' _ (mapGet_mapSet_self k _ m)]
            exact hf
      · refine ⟨k :: a', List.prefix_refl _, ?_⟩
        rw [lookupPath_dir_cons, mapGet_insertParts_ne b part (seg :: rest) m k hk,
          ← lookupPath_dir_cons]
        exact h

theorem insertParts_fileBlocked (b : Bool) (segs : List String) (m : Children)
    (p : List String) (hfb : fileBlocked m p) : fileBlocked (insertParts b segs m) p := by
  obtain ⟨a, hap, hf⟩ := hfb
  obtain ⟨a', ha', hf'⟩ := insertParts_file_persists b segs m a hf
  exact ⟨a', ha'.trans hap, hf'⟩

theorem fileBlocked_not_dir (m : Children) (p : List String) (hfb : fileBlocked m p)
    (l : Children) : lookupPath (Node.dir m) p ≠ some (Node.dir l) := by
  obtain ⟨a, ⟨q, rfl⟩, hf⟩ := hfb
  rw [lookupPath_append a q _, hf]
  cases q with
  | nil => simp [lookupPath]
  | cons x xs => simp [lookupPath]

theorem foldl_insert_fileBlocked :
    (items : List TreeItem) → ∀ (m : Children) (p : List String),
    fileBlocked m p →
    fileBlocked (items.foldl (fun mm item => insertItem item mm) m) p
  | [], _, _, h => h
  | e :: items, m, p, h => by
    rw [List.foldl_cons]
    exact foldl_insert_fileBlocked items (insertItem e m) p
      (insertParts_fileBlocked (e.type == "blob") (segsOf e) m p h)

theorem foldl_insert_preserves_dir :
    (items : List TreeItem) → ∀ (m : Children) (p : List String) (l : Children),
    lookupPath (Node.dir m) p = some (Node.dir l) →
    (∃ l', lookupPath (Node.dir (items.foldl (fun mm item => insertItem item mm) m)) p
        = some (Node.dir l') ∧ keysOf l <+: keysOf l')
    ∨ fileBlocked (items.foldl (fun mm item => insertItem item mm) m) p
  | [], _, _, l, h => Or.inl ⟨l, h, List.prefix_refl _⟩
  | e :: items, m, p, l, h => by
    rw [List.foldl_cons]
    rcases insertParts_preserves_dir (e.type == "blob") (segsOf e) m p l h with
      ⟨l1, h1, hp1⟩ | hfb
    · rcases foldl_insert_preserves_dir items (insertItem e m) p l1 h1 with
        ⟨l2, h2, hp2⟩ | hfb2
      · exact Or.inl ⟨l2, h2, hp1.trans hp2⟩
      · exact Or.inr hfb2
    · exact Or.inr (foldl_insert_fileBlocked items (insertItem e m) p hfb)

/-- Any `file` node in the result of an insertion was already there, or sits
exactly at the inserted blob entry's segment list. -/
theorem insertParts_leaf_origin (b : Bool) :
    (segs : List String) → ∀ (m : Children) (p : List String),
    lookupPath (Node.dir (insertParts b segs m)) p = some Node.file →
    lookupPath (Node.dir m) p = some Node.file ∨ (b = true ∧ segs = p)
  | [], m, p, h => Or.inl (by rw [insertParts_nil] at h; exact h)
  | [part], m, p, h => by
    cases p with
    | nil => rw [lookupPath_nil] at h; exact absurd h (by simp)
    | cons k p' =>
      by_cases hk : k = part
      · subst hk
        cases hc : mapGet k m with
        | some c =>
          rw [insertParts_single_present b k m c hc] at h
          cases b with
          | false => rw [if_neg (by simp)] at h; exact Or.inl h
          | true =>
            rw [if_pos rfl, lookupPath_dir_cons_get _ k p' Node.file
              (mapGet_mapSet_self k Node.file m)] at h
            obtain ⟨hp', _⟩ := lookupPath_file_eq p' Node.file h
            subst hp'
            exact Or.inr ⟨rfl, rfl⟩
        | none =>
          rw [insertParts_single_absent b k m hc] at h
          cases b with
          | true =>
            rw [if_pos rfl, lookupPath_dir_cons_get _ k p' Node.file
              (mapGet_mapSet_self k Node.file _)] at h
            obtain ⟨hp', _⟩ := lookupPath_file_eq p' Node.file h
            subst hp'
            exact Or.inr ⟨rfl, rfl⟩
          | false =>
            rw [if_neg (by simp), lookupPath_dir_cons_get _ k p' (Node.dir Children.nil)
              (mapGet_mapSet_self k _ m)] at h
            exact absurd h (lookupPath_dir_nil_not_file p')
      · rw [lookupPath_dir_cons, mapGet_insertParts_ne b part [] m k hk,
          ← lookupPath_dir_cons] at h
        exact Or.inl h
  | part :: seg :: rest, m, p, h => by
    cases p with
    | nil => rw [lookupPath_nil] at h; exact absurd h (by simp)
    | cons k p' =>
      by_cases hk : k = part
      · subst hk
        cases hc : mapGet k m with
        | some c =>
          cases c with
          | file =>
            rw [insertParts_cons2_file b k seg rest m hc] at h
            exact Or.inl h
          | dir sub =>
            rw [insertParts_cons2_dir b k seg rest m sub hc,
              lookupPath_dir_cons_get _ k p' _ (mapGet_mapSet_self k _ m)] at h
            rcases insertParts_leaf_origin b (seg :: rest) sub p' h with hfile | ⟨hb, hseg⟩
            · exact Or.inl (by rw [lookupPath_dir_cons_get m k p' _ hc]; exact hfile)
            · exact Or.inr ⟨hb, by rw [hseg]⟩
        | none =>
          rw [insertParts_cons2_absent b k seg rest m hc,
            lookupPath_dir_cons_get _ k p' _ (mapGet_mapSet_self k _ _)] at h
          rcases insertParts_leaf_origin b (seg :: rest) Children.nil p' h with hfile | ⟨hb, hseg⟩
          · exact absurd hfile (lookupPath_dir_nil_not_file p')
          · exact Or.inr ⟨hb, by rw [hseg]⟩
      · rw [lookupPath_dir_cons, mapGet_insertParts_ne b part (seg :: rest) m k hk,
          ← lookupPath_dir_cons] at h
        exact Or.inl h

theorem foldl_insert_leaf_origin :
    (items : List TreeItem) → ∀ (m : Children) (p : List String),
    lookupPath (Node.dir (items.foldl (fun mm item => insertItem item mm) m)) p
      = some Node.file →
    lookupPath (Node.dir m) p = some Node.file
      ∨ ∃ e, e ∈ items ∧ e.type = "blob" ∧ segsOf e = p
  | [], _, _, h => Or.inl h
  | e :: items, m, p, h => by
    rw [List.foldl_cons] at h
    rcases foldl_insert_leaf_origin items (insertItem e m) p h with hfile | ⟨e', he', hb, hs⟩
    · rcases insertParts_leaf_origin (e.type == "blob") (segsOf e) m p hfile with
        h0 | ⟨hb0, hs0⟩
      · exact Or.inl h0
      · exact Or.inr ⟨e, List.mem_cons_self e items, by simpa using hb0, hs0⟩
    · exact Or.inr ⟨e', List.mem_cons_of_mem e he', hb, hs⟩

/-- Every `file` node of `build`'s output sits exactly at the segment list
of some blob entry of the input. -/
theorem build_leaf_origin (es : List TreeItem) (p : List String)
    (h : lookupPath (Node.dir (build es)) p = some Node.file) :
    ∃ e, e ∈ es ∧ e.type = "blob" ∧ segsOf e = p := by
  rcases foldl_insert_leaf_origin es Children.nil p h with hfile | hex
  · exact absurd hfile (lookupPath_dir_nil_not_file p)
  · exact hex

/-- If no proper prefix of the inserted segment list is occupied by a
`file` node, then after the insertion every proper prefix of the segment
list holds a directory. -/
theorem insertParts_creates_dirs (b : Bool) :
    (segs : List String) → ∀ (m : Children),
    (∀ q, q <+: segs → q ≠ segs → lookupPath (Node.dir m) q ≠ some Node.file) →
    ∀ p, p <+: segs → p ≠ segs →
    ∃ l, lookupPath (Node.dir (insertParts b segs m)) p = some (Node.dir l)
  | [], m, _, p, hp, hne => absurd (List.prefix_nil.mp hp) hne
  | [part], m, _, p, hp, hne => by
    cases p with
    | nil => exact ⟨insertParts b [part] m, rfl⟩
    | cons k p' =>
      rw [List.cons_prefix_cons] at hp
      obtain ⟨rfl, hp'⟩ := hp
      obtain rfl := List.prefix_nil.mp hp'
      exact absurd rfl hne
  | part :: seg :: rest, m, hq, p, hp, hne => by
    cases p with
    | nil => exact ⟨insertParts b (part :: seg :: rest) m, rfl⟩
    | cons k p' =>
      rw [List.cons_prefix_cons] at hp
      obtain ⟨rfl, hp'⟩ := hp
      have hmfile : mapGet k m ≠ some Node.file := by
        intro hfile
        refine hq [k] (singleton_prefix_cons k (seg :: rest)) (by simp) ?_
        rw [lookupPath_dir_cons_get m k [] _ hfile, lookupPath_nil]
      cases hc : mapGet k m with
      | some c =>
        cases c with
        | file => exact absurd hc hmfile
        | dir sub =>
          have hq' : ∀ q, q <+: seg :: rest → q ≠ seg :: rest →
              lookupPath (Node.dir sub) q ≠ some Node.file := by
            intro q hq1 hq2 hfile
            refine hq (k :: q) (cons_prefix_cons_of k q (seg :: rest) hq1) (by simp [hq2]) ?_
            rw [lookupPath_dir_cons_get m k q _ hc]
            exact hfile
          obtain ⟨l, hl⟩ := insertParts_creates_dirs b (seg :: rest) sub hq' p' hp'
            (fun hh => hne (by rw [hh]))
          refine ⟨l, ?_⟩
          rw [insertParts_cons2_dir b k seg rest m sub hc,
            lookupPath_dir_cons_get _ k p' _ (mapGet_mapSet_self k _ m)]
          exact hl
      | none =>
        have hq0 : ∀ q, q <+: seg :: rest → q ≠ seg :: rest →
            lookupPath (Node.dir Children.nil) q ≠ some Node.file :=
          fun q _ _ => lookupPath_dir_nil_not_file q
        obtain ⟨l, hl⟩ := insertParts_creates_dirs b (seg :: rest) Children.nil hq0 p' hp'
          (fun hh => hne (by rw [hh]))
        refine ⟨l, ?_⟩
        rw [insertParts_cons2_absent b k seg rest m hc,
          lookupPath_dir_cons_get _ k p' _ (mapGet_mapSet_self k _ _)]
        exact hl

theorem build_keys_monotone (es es' : List TreeItem) (p : List String) (l l' : Children)
    (h : lookupPath (Node.dir (build es)) p = some (Node.dir l))
    (h' : lookupPath (Node.dir (build (es ++ es'))) p = some (Node.dir l')) :
    keysOf l <+: keysOf l' := by
  have hb : build (es ++ es') = es'.foldl (fun mm item => insertItem item mm) (build es) := by
    unfold build
    rw [List.foldl_append]
  rw [hb] at h'
  rcases foldl_insert_preserves_dir es' (build es) p l h with ⟨l2, h2, hp2⟩ | hfb
  · obtain rfl := dir_some_inj l2 l' (h2.symm.trans h')
    exact hp2
  · exact absurd h' (fileBlocked_not_dir _ p hfb l')

/-- Rendering a concatenation of entry lists concatenates the renderings:
children are emitted strictly in map order. -/
theorem buildStructureString_appendC :
    (l1 : Children) → ∀ (l2 : Children) (pre : String),
    buildStructureString (appendC l1 l2) pre
      = buildStructureString l1 pre ++ buildStructureString l2 pre
  | Children.nil, l2, pre => by
    rw [appendC, buildStructureString.eq_1, String.empty_append]
  | Children.cons k v rest, l2, pre => by
    cases v with
    | file =>
      show buildStructureString (Children.cons k Node.file (appendC rest l2)) pre
        = buildStructureString (Children.cons k Node.file rest) pre
          ++ buildStructureString l2 pre
      rw [buildStructureString_cons_file, buildStructureString_cons_file,
        buildStructureString_appendC rest l2 pre]
      exact (String.append_assoc _ _ _).symm
    | dir sub =>
      show buildStructureString (Children.cons k (Node.dir sub) (appendC rest l2)) pre
        = buildStructureString (Children.cons k (Node.dir sub) rest) pre
          ++ buildStructureString l2 pre
      rw [buildStructureString_cons_dir, buildStructureString_cons_dir,
        buildStructureString_appendC rest l2 pre]
      exact (String.append_assoc _ _ _).symm

/-! ## Counting lemmas (finiteness of the built structure) -/

theorem nodeCount_file_eq : nodeCount Node.file = 1 := by rw [nodeCount]

theorem nodeCount_dir_eq (l : Children) : nodeCount (Node.dir l) = 1 + childCount l := by
  rw [nodeCount]

theorem childCount_nil_eq : childCount Children.nil = 0 := by rw [childCount]

theorem childCount_cons_eq (k : String) (v : Node) (rest : Children) :
    childCount (Children.cons k v rest) = nodeCount v + childCount rest := by
  rw [childCount]

theorem nodeCount_pos : (v : Node) → 1 ≤ nodeCount v
  | Node.file => Nat.le_refl 1
  | Node.dir l => by rw [nodeCount_dir_eq]; exact Nat.le_add_right 1 (childCount l)

theorem childCount_mapSet_present (k : String) (v w : Node) :
    (m : Children) → mapGet k m = some w →
    childCount (mapSet k v m) + nodeCount w = childCount m + nodeCount v
  | Children.nil, h => by simp [mapGet] at h
  | Children.cons k' v' rest, h => by
    by_cases hk : k' = k
    · subst hk
      simp only [mapGet, if_true, eq_self_iff_true, Option.some.injEq] at h
      subst h
      simp only [mapSet, if_true, eq_self_iff_true, childCount_cons_eq]
      omega
    · simp only [mapGet, if_neg hk] at h
      have := childCount_mapSet_present k v w rest h
      rw [mapSet, if_neg hk, childCount_cons_eq, childCount_cons_eq]
      omega

theorem childCount_mapSet_absent (k : String) (v : Node) :
    (m : Children) → mapGet k m = none →
    childCount (mapSet k v m) = childCount m + nodeCount v
  | Children.nil, _ => by
    rw [mapSet, childCount_cons_eq, childCount_nil_eq]
    omega
  | Children.cons k' v' rest, h => by
    by_cases hk : k' = k
    · simp [mapGet, hk] at h
    · simp only [mapGet, if_neg hk] at h
      have := childCount_mapSet_absent k v rest h
      rw [mapSet, if_neg hk, childCount_cons_eq, childCount_cons_eq]
      omega

theorem childCount_insertParts_le (b : Bool) :
    (segs : List String) → ∀ (m : Children),
    childCount (insertParts b segs m) ≤ childCount m + segs.length
  | [], m => by rw [insertParts_nil]; simp
  | [part], m => by
    cases hc : mapGet part m with
    | some v =>
      rw [insertParts_single_present b part m v hc]
      cases b with
      | false => rw [if_neg (by simp)]; simp
      | true =>
        rw [if_pos rfl]
        have h1 := childCount_mapSet_present part Node.file v m hc
        have h2 := nodeCount_pos v
        rw [nodeCount_file_eq] at h1
        simp only [List.length_cons, List.length_nil]
        omega
    | none =>
      rw [insertParts_single_absent b part m hc]
      cases b with
      | false =>
        rw [if_neg (by simp), childCount_mapSet_absent part _ m hc, nodeCount_dir_eq,
          childCount_nil_eq]
        simp
      | true =>
        rw [if_pos rfl]
        have h0 := childCount_mapSet_absent part (Node.dir Children.nil) m hc
        have h1 := childCount_mapSet_present part Node.file (Node.dir Children.nil)
          (mapSet part (Node.dir Children.nil) m) (mapGet_mapSet_self part _ m)
        rw [nodeCount_dir_eq, childCount_nil_eq] at h0 h1
        rw [nodeCount_file_eq] at h1
        simp only [List.length_cons, List.length_nil]
        omega
  | part :: seg :: rest, m => by
    cases hc : mapGet part m with
    | some v =>
      cases v with
      | file =>
        rw [insertParts_cons2_file b part seg rest m hc]
        simp
      | dir sub =>
        rw [insertParts_cons2_dir b part seg rest m sub hc]
        have h1 := childCount_mapSet_present part
          (Node.dir (insertParts b (seg :: rest) sub)) (Node.dir sub) m hc
        have h2 := childCount_insertParts_le b (seg :: rest) sub
        rw [nodeCount_dir_eq, nodeCount_dir_eq] at h1
        simp only [List.length_cons] at h2 ⊢
        omega
    | none =>
      rw [insertParts_cons2_absent b part seg rest m hc]
      have h0 := childCount_mapSet_absent part (Node.dir Children.nil) m hc
      have h1 := childCount_mapSet_present part
        (Node.dir (insertParts b (seg :: rest) Children.nil)) (Node.dir Children.nil)
        (mapSet part (Node.dir Children.nil) m) (mapGet_mapSet_self part _ m)
      have h2 := childCount_insertParts_le b (seg :: rest) Children.nil
      rw [nodeCount_dir_eq, childCount_nil_eq] at h0 h1
      rw [nodeCount_dir_eq] at h1
      rw [childCount_nil_eq] at h2
      simp only [List.length_cons] at h2 ⊢
      omega

theorem childCount_foldl_insert_le :
    (items : List TreeItem) → ∀ (m : Children),
    childCount (items.foldl (fun mm item => insertItem item mm) m)
      ≤ childCount m + (items.map (fun item => (segsOf item).length)).sum
  | [], m => by simp
  | e :: items, m => by
    rw [List.foldl_cons]
    have h1 := childCount_foldl_insert_le items (insertItem e m)
    have h2 : childCount (insertItem e m) ≤ childCount m + (segsOf e).length :=
      childCount_insertParts_le (e.type == "blob") (segsOf e) m
    simp only [List.map_cons, List.sum_cons]
    omega

/-! ## Claim C1 -/

/-- C1 (counterexample): for
`entries = [{path: "x", kind: "blob"}, {path: "x/y", kind: "blob"}]` the key
`"x"` of the root produced by the map-construction phase of
`generateStructure` maps to the `Leaf` marker — not to a directory with the
single leaf child `"y"` — so the claim that the later entry wins at `"x"`
and that `"x"` is not a `Leaf` in the result is false. -/
theorem spec_C1_counterexample :
    mapGet "x" (build [⟨"x", "blob"⟩, ⟨"x/y", "blob"⟩]) = some Node.file := by decide

/-- C1 (amended): for
`entries = [{path: "x", kind: "blob"}, {path: "x/y", kind: "blob"}]` the
root keeps `"x"` as the `Leaf` created by the first entry, and the later
entry `"x/y"` is silently dropped: descending through a `Leaf` aborts the
segment walk, so the earlier entry wins at key `"x"`. -/
theorem spec_C1_amended :
    build [⟨"x", "blob"⟩, ⟨"x/y", "blob"⟩] = toChildren [("x", Node.file)] := by
  decide

/-! ## Claim C2 (counterexample part) -/

/-- C2 (counterexample): for
`entries = [{path: "x", kind: "blob"}, {path: "x/y", kind: "blob"}]` the
proper path prefix `["x"]` of the entry `"x/y"` is present as a `file`
node, not as a `Directory`, in `build`'s output, refuting the claim that
every implied ancestor is a directory for every entry sequence. -/
theorem spec_C2_counterexample :
    lookupPath (Node.dir (build [⟨"x", "blob"⟩, ⟨"x/y", "blob"⟩])) ["x"]
      = some Node.file := by decide

/-- C2 (amended): every proper path prefix of an entry's path is present as
a `Directory` in `build`'s output — provided no blob entry's segment list
is a proper prefix of that entry's segment list (a `Leaf` created at such a
prefix blocks the descent, or overwrites the directory, as the
counterexample shows). -/
theorem spec_C2_amended (es : List TreeItem) (e : TreeItem) (he : e ∈ es)
    (hnb : ∀ b, b ∈ es → b.type = "blob" → segsOf b <+: segsOf e → segsOf b = segsOf e)
    (p : List String) (hp : p <+: segsOf e) (hne : p ≠ segsOf e) :
    ∃ l, lookupPath (Node.dir (build es)) p = some (Node.dir l) := by
  obtain ⟨es1, es2, rfl⟩ := List.append_of_mem he
  have hb : build (es1 ++ e :: es2)
      = es2.foldl (fun mm item => insertItem item mm) (insertItem e (build es1)) := by
    unfold build
    rw [List.foldl_append, List.foldl_cons]
  have hq : ∀ q, q <+: segsOf e → q ≠ segsOf e →
      lookupPath (Node.dir (build es1)) q ≠ some Node.file := by
    intro q hq1 hq2 hfile
    obtain ⟨b', hb', hbt, hbs⟩ := build_leaf_origin es1 q hfile
    have heq : segsOf b' = segsOf e :=
      hnb b' (by simp [hb']) hbt (by rw [hbs]; exact hq1)
    exact hq2 (by rw [← hbs, heq])
  obtain ⟨l0, hl0⟩ :=
    insertParts_creates_dirs (e.type == "blob") (segsOf e) (build es1) hq p hp hne
  rw [hb]
  rcases foldl_insert_preserves_dir es2 (insertItem e (build es1)) p l0 hl0 with
    ⟨l', hl', _⟩ | hfb
  · exact ⟨l', hl'⟩
  · exfalso
    obtain ⟨a, hap, hf⟩ := hfb
    have hf' : lookupPath (Node.dir (build (es1 ++ e :: es2))) a = some Node.file := by
      rw [hb]; exact hf
    obtain ⟨b', hb', hbt, hbs⟩ := build_leaf_origin (es1 ++ e :: es2) a hf'
    have hae : a <+: segsOf e := hap.trans hp
    have heq : segsOf b' = segsOf e := hnb b' hb' hbt (by rw [hbs]; exact hae)
    have ha_eq : a = segsOf e := by rw [← hbs, heq]
    exact hne (hp.eq_of_length (Nat.le_antisymm hp.length_le (ha_eq ▸ hap).length_le))

/-- Witness for C2 (amended): for the single entry `a/b.txt` the implied
ancestor directory `a` exists in the built structure. -/
theorem spec_C2_amended_witness :
    ∃ l, lookupPath (Node.dir (build [⟨"a/b.txt", "blob"⟩])) ["a"]
      = some (Node.dir l) :=
  spec_C2_amended [⟨"a/b.txt", "blob"⟩] ⟨"a/b.txt", "blob"⟩ (by decide)
    (by decide) ["a"] (by decide) (by decide)

/-! ## Claim C3 -/

/-- C3 (counterexample): with the search term `"a"`, the directory `"a"`
matches the term case-insensitively, yet its non-matching leaf child `"b"`
is removed by `filterStructure` — the directory survives with empty
children.  This refutes the claim that a leaf survives whenever some
ancestor directory's name matches the term. -/
theorem spec_C3_counterexample :
    containsCI "a" "a" = true ∧
    filterStructure (toChildren [("a", Node.dir (toChildren [("b", Node.file)]))]) "a"
      = toChildren [("a", Node.dir Children.nil)] :=
  ⟨by decide, by decide⟩

/-- C3 (amended): `filterStructure` removes a leaf iff the leaf's own name
does not contain the term as a case-insensitive substring: the leaf paths
of the filtered structure are exactly the leaf paths of the input whose
final segment (the leaf's own name) matches.  Ancestor directory names do
not save a non-matching leaf (a matching directory survives, but only with
its matching descendants). -/
theorem spec_C3_amended (m : Children) (term : String) :
    leafPaths (filterStructure m term)
      = (leafPaths m).filter (fun p => containsCI (p.getLastD "") term) :=
  leafPaths_filterStructure term m

/-! ## Claim C4 -/

/-- C4 (counterexample): after
`entries = [{path: "x", kind: "blob"}, {path: "x", kind: "tree"}]` the key
`"x"` is still a `Leaf`: processing a `tree`-kind entry whose final-segment
key already holds a non-`Directory` value leaves that `Leaf` in place,
refuting the claim that an existing non-`Directory` value is made a
`Directory`. -/
theorem spec_C4_counterexample :
    build [⟨"x", "blob"⟩, ⟨"x", "tree"⟩] = toChildren [("x", Node.file)] := by
  decide

/-- C4 (amended): on the final path segment, a `"blob"` entry sets the key
to a `Leaf`, replacing any existing value (including a `Directory`); a
non-`"blob"` (`tree`) entry creates an empty `Directory` only if the key is
absent and otherwise leaves the existing value — even a `Leaf` —
unchanged. -/
theorem spec_C4_amended (m : Children) (part : String) :
    mapGet part (insertParts true [part] m) = some Node.file ∧
    mapGet part (insertParts false [part] m)
      = some ((mapGet part m).getD (Node.dir Children.nil)) := by
  constructor
  · simp [insertParts, mapGet_mapSet_self]
  · cases h : mapGet part m with
    | some v => simp [insertParts, h]
    | none => simp [insertParts, h, mapGet_mapSet_self]

/-! ## Claim C5 -/

/-- C5: `buildStructureString` emits no line — and no subtree — for a child
whose key is exactly the string `"type"`: rendering a map with such an
entry gives the same string as rendering the map with the entry deleted,
for every position of the entry, every value under it, and every prefix. -/
theorem spec_C5_type_child_omitted :
    (l1 : Children) → (pre : String) → (v : Node) → (l2 : Children) →
    buildStructureString (appendC l1 (Children.cons "type" v l2)) pre
      = buildStructureString (appendC l1 l2) pre
  | Children.nil, pre, v, l2 => by cases v <;> rfl
  | Children.cons k v' rest, pre, v, l2 => by
    cases v' with
    | file =>
      show buildStructureString
          (Children.cons k Node.file (appendC rest (Children.cons "type" v l2))) pre
        = buildStructureString (Children.cons k Node.file (appendC rest l2)) pre
      rw [buildStructureString_cons_file, buildStructureString_cons_file,
        spec_C5_type_child_omitted rest pre v l2]
    | dir sub =>
      show buildStructureString
          (Children.cons k (Node.dir sub) (appendC rest (Children.cons "type" v l2))) pre
        = buildStructureString (Children.cons k (Node.dir sub) (appendC rest l2)) pre
      rw [buildStructureString_cons_dir, buildStructureString_cons_dir,
        spec_C5_type_child_omitted rest pre v l2]

/-! ## Claim C6 -/

/-- C6: for
`entries = [{path: "a/b.txt", kind: "blob"}, {path: "a/c/d.txt", kind: "blob"}]`,
`build` yields the claimed nested structure and rendering it yields exactly
the four claimed lines, each terminated by a newline. -/
theorem spec_C6_scenario :
    build [⟨"a/b.txt", "blob"⟩, ⟨"a/c/d.txt", "blob"⟩]
      = toChildren [("a", Node.dir (toChildren
          [("b.txt", Node.file), ("c", Node.dir (toChildren [("d.txt", Node.file)]))]))] ∧
    generateStructure [⟨"a/b.txt", "blob"⟩, ⟨"a/c/d.txt", "blob"⟩]
      = "├── a\n│   ├── b.txt\n│   ├── c\n│   │   ├── d.txt\n" :=
  ⟨by decide, by decide⟩

/-! ## Claim C7 -/

/-- C7: children of every directory appear in first-insertion order.
First conjunct: processing further entries only ever appends to the key
list of any directory reachable in the structure (a key's position is
fixed by the entry that first created it, and later overwrites keep it).
Second conjunct: rendering emits children strictly in map order — the
rendering of a concatenation is the concatenation of the renderings, so no
sorting takes place. -/
theorem spec_C7_first_insertion_order :
    (∀ (es es' : List TreeItem) (p : List String) (l l' : Children),
        lookupPath (Node.dir (build es)) p = some (Node.dir l) →
        lookupPath (Node.dir (build (es ++ es'))) p = some (Node.dir l') →
        keysOf l <+: keysOf l') ∧
    (∀ (l1 l2 : Children) (pre : String),
        buildStructureString (appendC l1 l2) pre
          = buildStructureString l1 pre ++ buildStructureString l2 pre) :=
  ⟨fun es es' p l l' h h' => build_keys_monotone es es' p l l' h h',
   fun l1 l2 pre => buildStructureString_appendC l1 l2 pre⟩

/-- Witness for C7: a directory created by the first entry keeps its key
list as a prefix after a second entry appends a sibling. -/
theorem spec_C7_first_insertion_order_witness :
    keysOf (toChildren [("a", Node.dir Children.nil)])
      <+: keysOf (toChildren [("a", Node.dir Children.nil), ("b", Node.file)]) :=
  spec_C7_first_insertion_order.1 [⟨"a", "tree"⟩] [⟨"b", "blob"⟩] []
    (toChildren [("a", Node.dir Children.nil)])
    (toChildren [("a", Node.dir Children.nil), ("b", Node.file)])
    (by decide) (by decide)

/-! ## Claim C8 -/

/-- C8: `build`, `buildStructureString` and `filterStructure` are total
functions of the embedding (they are defined by terminating structural
recursions), and the structure `build` produces is a finite tree whose
node count is bounded by the total number of path segments of the input —
so the renderer's and the filter's plain pre-order walks operate on a
finite acyclic structure.  The second and third conjuncts exhibit the
values of rendering and filtering on an arbitrary input, which exist for
every input: no input raises an error. -/
theorem spec_C8_total_finite (tree : List TreeItem) (term : String) :
    childCount (build tree) ≤ (tree.map (fun item => (segsOf item).length)).sum ∧
    (∃ s, generateStructure tree = s) ∧
    (∃ m, filterStructure (build tree) term = m) := by
  refine ⟨?_, ⟨generateStructure tree, rfl⟩, ⟨filterStructure (build tree) term, rfl⟩⟩
  have h := childCount_foldl_insert_le tree Children.nil
  rw [childCount_nil_eq] at h
  simpa using h

/-! ## Claim C9 -/

/-- C9: filtering with the empty search term is the identity: every leaf
and every directory (with its full subtree) is retained. -/
theorem spec_C9_empty_term_identity (m : Children) : filterStructure m "" = m :=
  filterStructure_empty_term m

/-! ## Claim C10 -/

/-- C10: rendering the structure built from the empty entry sequence
yields the empty string, with no header, placeholder, or trailing
characters. -/
theorem spec_C10_render_empty_build : generateStructure [] = "" := rfl

end RepoTree
